import Mathlib

/-!
Verification of the data-lineage discovery core (`src/lineage.py`):
the catalog scanner `scan_sql_files`, the reference extractor
`extract_referenced_tables`, and the recursive lineage builder
`build_lineage`.

The Python functions are embedded as executable Lean definitions:

* the table-to-file dictionary is an association list in insertion order
  (`dictInsert` overwrites in place, like a Python `dict`);
* the filesystem is a map `String → Option String` from paths to contents,
  where `none` stands for a read that raises `IOError`;
* Python sets are modelled as deduplicated lists (the concrete order stands
  in for the unspecified iteration order of a Python `set`);
* the unbounded Python recursion is embedded with an explicit fuel
  parameter; `BuildResult.outOfFuel` is a model artifact that is proved
  unreachable for any fuel exceeding the number of catalog keys, which is
  exactly the termination argument for the Python code;
* regular expressions are expanded into the scanning functions they denote
  on ASCII text (the `re` module's Unicode extension of `\w` is out of
  scope; every input considered below is ASCII).
-/

namespace DataLineage

/-! ## Reference extractor: `extract_referenced_tables` (src/lineage.py:28-35)

The Python code runs `re.findall(r'\b(g_|s_|b_)[a-z0-9_]+', sql_content)`
and wraps the result in `set(...)`.  Because the pattern has one capturing
group, `findall` returns the text of that group only. -/

/-- The character class `[a-z0-9_]` from the extraction regex. -/
def refIdentChar (ch : Char) : Bool :=
  ('a' ≤ ch && ch ≤ 'z') || ('0' ≤ ch && ch ≤ '9') || ch == '_'

/-- Python's `\w` on ASCII text: letters, digits, underscore.  Used for the
`\b` word-boundary test and for the filename regex. -/
def pyWordChar (ch : Char) : Bool :=
  ch.isAlphanum || ch == '_'

/-- `str.lower()` on ASCII text: lowercase each character.  (Implemented on
the character list so that it reduces inside the kernel; `String.toLower`
itself is defined by well-founded recursion on byte positions and does
not.) -/
def pyLower (s : String) : String :=
  String.mk (s.data.map Char.toLower)

/-- `str.endswith(suffix)`, on the character lists for the same reason. -/
def strEndsWith (s suffix : String) : Bool :=
  decide (suffix.data.length ≤ s.data.length) &&
    s.data.drop (s.data.length - suffix.data.length) == suffix.data

/-- First character of one of the alternatives `g_ | s_ | b_`. -/
def tierHead (ch : Char) : Bool :=
  ch == 'g' || ch == 's' || ch == 'b'

/-- One left-to-right scan of `re.findall(r'\b(g_|s_|b_)[a-z0-9_]+', s)`,
returning the captured group of each match in order.  The boolean argument
records whether the previous character was a word character (`\b` fails at
the current position exactly when it is).  A match needs: a word boundary,
one of `g`/`s`/`b`, an underscore, and at least one `[a-z0-9_]` character.
Characters strictly inside a matched run can never start a new match (no
word boundary there), so advancing one character at a time is equivalent to
skipping each whole match. -/
def findallRefs : List Char → Bool → List String
  | [], _ => []
  | ch :: rest, prevW =>
    (if !prevW && tierHead ch then
      match rest with
      | '_' :: c2 :: _ => if refIdentChar c2 then [String.mk [ch, '_']] else []
      | _ => []
    else []) ++ findallRefs rest (pyWordChar ch)

/-- `extract_referenced_tables(sql_content)` from src/lineage.py:28-35.
`re.findall` with a capturing group yields only the group text, so the
result holds bare prefix tokens (`"g_"`, `"s_"`, `"b_"`), not whole table
names.  The Python `set(matches)` is modelled as a deduplicated list. -/
def extract_referenced_tables (sql_content : String) : List String :=
  (findallRefs sql_content.data false).dedup

/-! ## Lineage builder: `build_lineage` (src/lineage.py:38-61) -/

/-- Outcome of one `build_lineage` call: normal return of the edge list and
the (mutated) visited set, a propagated `IOError` from `open`/`read`, or
fuel exhaustion (a model artifact, proved unreachable for sufficient fuel). -/
inductive BuildResult where
  | ok (edges : List (String × String)) (visited : List String)
  | ioError
  | outOfFuel
deriving DecidableEq

/-- Python's `ref_table in table_file_map`: key membership in the dict. -/
def keyMem (c : List (String × String)) (k : String) : Bool :=
  (c.lookup k).isSome

/-- The `for ref_table in referenced_tables:` loop body of `build_lineage`
(src/lineage.py:56-60): for each reference present in the catalog, append
the edge `(table, ref)` and splice in the edges of the recursive call,
threading the visited set; references absent from the catalog are skipped.
`bf` is the recursive call at the enclosing (already decremented) fuel. -/
def goRefs (c : List (String × String))
    (bf : String → List String → BuildResult) (t : String) :
    List String → List String → BuildResult
  | [], v => .ok [] v
  | r :: rest, v =>
    if keyMem c r then
      match bf r v with
      | .ok es1 v1 =>
        match goRefs c bf t rest v1 with
        | .ok es2 v2 => .ok ((t, r) :: es1 ++ es2) v2
        | e => e
      | e => e
    else goRefs c bf t rest v

/-- `build_lineage(table_name, table_file_map, visited)` from
src/lineage.py:38-61, with explicit fuel.  Faithful to the source line by
line: return `[]` when already visited; mark visited; `dict.get` followed by
the falsy test `if not file_path` (which treats both a missing key and an
empty-string path as "not found"); read the file (an unreadable file raises,
there is no `try`/`except`); lowercase the content; extract references; loop
over them with `goRefs`. -/
def buildFuel (fs : String → Option String) (c : List (String × String)) :
    Nat → String → List String → BuildResult
  | 0, _, _ => .outOfFuel
  | fuel + 1, t, v =>
    if t ∈ v then .ok [] v
    else
      match c.lookup t with
      | none => .ok [] (t :: v)
      | some p =>
        if p = "" then .ok [] (t :: v)
        else
          match fs p with
          | none => .ioError
          | some content =>
            goRefs c (fun r w => buildFuel fs c fuel r w) t
              (extract_referenced_tables (pyLower content)) (t :: v)

/-- Number of catalog keys not yet visited; fuel exceeding this bound is
proved sufficient for `buildFuel` to never hit `outOfFuel`. -/
def catalogBound (c : List (String × String)) (v : List String) : Nat :=
  ((c.map Prod.fst).toFinset \ v.toFinset).card

/-- `build_lineage` at the canonical sufficient fuel. -/
def build_lineage (fs : String → Option String) (c : List (String × String))
    (t : String) (v : List String) : BuildResult :=
  buildFuel fs c (catalogBound c v + 1) t v

/-- The edge list of a successful build (an aborted build hands the caller
no edge list at all). -/
def edgesOf : BuildResult → List (String × String)
  | .ok es _ => es
  | _ => []

/-! ## Catalog scanner: `scan_sql_files` (src/lineage.py:8-25) -/

/-- The literal `.sql` looked for by the `\.sql` tail of the filename
regex. -/
def dotSqlAt : List Char → Bool
  | '.' :: 's' :: 'q' :: 'l' :: _ => true
  | _ => false

/-- The greedy `(.+)\.sql` tail of `re.match(r'(g_|s_|b_)(\w+?)_(.+)\.sql', ...)`:
the longest nonempty newline-free prefix that is immediately followed by
`.sql` (the regex is not end-anchored, so trailing characters are ignored).
Returns the text of group 3. -/
def greedyBase (l : List Char) : Option (List Char) :=
  match ((List.range (l.length + 1)).filter (fun j =>
      (j != 0) && (l.take j).all (fun ch => ch != '\n') && dotSqlAt (l.drop j))).getLast? with
  | some j => some (l.take j)
  | none => none

/-- The `(\w+?)_(.+)\.sql` part of the filename regex, applied after the
prefix token.  The lazy `(\w+?)` grows one word character at a time; for
each candidate qualifier followed by a literal `_`, the greedy tail is
tried; the first qualifier that lets the tail succeed wins.  Returns the
text of group 3 (the base name). -/
def structTail : List Char → Option (List Char)
  | [] => none
  | ch :: rest =>
    if pyWordChar ch then
      match rest with
      | '_' :: r2 =>
        match greedyBase r2 with
        | some b => some b
        | none => structTail rest
      | _ => structTail rest
    else none

/-- `re.match(r'(g_|s_|b_)(\w+?)_(.+)\.sql', file_lower)` followed by
`prefix + base_name` (src/lineage.py:19-23): anchored at the start, the
prefix token, a lazy one-or-more word-character qualifier, an underscore,
and a greedy base name before `.sql`.  Returns the derived table name
`group(1) + group(3)` when the name matches. -/
def structMatch : List Char → Option String
  | 'g' :: '_' :: rest => (structTail rest).map (fun b => String.mk ('g' :: '_' :: b))
  | 's' :: '_' :: rest => (structTail rest).map (fun b => String.mk ('s' :: '_' :: b))
  | 'b' :: '_' :: rest => (structTail rest).map (fun b => String.mk ('b' :: '_' :: b))
  | _ => none

/-- The per-file test of the scanner: `file.endswith('.sql')` on the raw
name, then the structured pattern on `file.lower()`; yields the table name
when the file is taken. -/
def fileTable (f : String) : Option String :=
  if strEndsWith f ".sql" then structMatch (pyLower f).data else none

/-- `os.path.join(root, file)` for a directory path and a plain file name
(names produced by `os.walk` contain no separator and are never absolute). -/
def pathJoin (r f : String) : String :=
  if strEndsWith r "/" then r ++ f else r ++ "/" ++ f

/-- `table_file_map[sql_table_name] = file_path` on a Python dict: overwrite
in place when the key exists, append otherwise. -/
def dictInsert (m : List (String × String)) (k v : String) :
    List (String × String) :=
  if keyMem m k then m.map (fun p => if p.1 = k then (k, v) else p)
  else m ++ [(k, v)]

/-- The scanner's loop over the `(root, file)` pairs produced by `os.walk`,
threading the accumulated dict. -/
def scanAux : List (String × String) → List (String × String) → List (String × String)
  | [], acc => acc
  | rf :: rest, acc =>
    scanAux rest
      (match fileTable rf.2 with
       | some tn => dictInsert acc tn (pathJoin rf.1 rf.2)
       | none => acc)

/-- `scan_sql_files(base_dir)` from src/lineage.py:8-25, as a function of
the `(dirpath, filename)` listing that `os.walk(base_dir)` yields. -/
def scan_sql_files (walk : List (String × String)) : List (String × String) :=
  scanAux walk []

/-- `p` lies under directory `D`. -/
def underDir (D p : String) : Prop :=
  ∃ s, p = D ++ s

/-- The listing `os.walk` yields when the root directory does not exist or
cannot be read: with the default `onerror=None`, the error from `scandir`
is swallowed and the walk produces no entries at all. -/
def walkOfMissingRoot : List (String × String) := []

/-! ## Concrete inputs used by counterexamples and witnesses -/

/-- A two-entry catalog whose files reference each other: `g_` is defined by
`pa` whose content mentions `s_x`, and `s_` by `pb` whose content mentions
`g_y`.  Under the extractor this is a reference cycle `g_ ↔ s_`. -/
def exCatalog : List (String × String) := [("g_", "pa"), ("s_", "pb")]

/-- Contents of the two files of `exCatalog`. -/
def exFs : String → Option String :=
  fun p => if p = "pa" then some "s_x" else if p = "pb" then some "g_y" else none

/-- A one-entry catalog whose single file references its own table. -/
def selfCatalog : List (String × String) := [("g_", "p")]

/-- Content of the file of `selfCatalog`: it mentions `g_x`, which the
extractor collapses to the bare prefix `g_` — the table's own name. -/
def selfFs : String → Option String :=
  fun p => if p = "p" then some "g_x" else none

/-- A filesystem on which every read raises. -/
def badFs : String → Option String := fun _ => none

/-- A walk listing with one structurally named SQL file and one file the
scanner must skip. -/
def exWalk : List (String × String) :=
  [("SQL/Extract", "g_a_market_table.sql"), ("SQL/Extract", "notes.txt")]

/-- The invariant every `build_lineage` call satisfies on normal return:
the visited set only grows, the expanded table ends up visited, every edge
points at a catalog key, both endpoints of every edge end up visited, no
edge's dependent was visited before the call, and the edge list has no
repeated pair. -/
def BuildInv (c : List (String × String))
    (bf : String → List String → BuildResult) : Prop :=
  ∀ t v es v', bf t v = .ok es v' →
    (∀ x ∈ v, x ∈ v') ∧ t ∈ v' ∧
    (∀ e ∈ es, keyMem c e.2 = true ∧ e.1 ∈ v' ∧ e.2 ∈ v' ∧ e.1 ∉ v) ∧
    es.Nodup

/-! ## Shared lemmas -/

theorem lookup_mem_keys :
    ∀ (c : List (String × String)) (t p : String),
      c.lookup t = some p → t ∈ c.map Prod.fst := by
  intro c
  induction c with
  | nil => intro t p h; simp at h
  | cons q rest ih =>
    intro t p h
    rw [List.lookup] at h
    cases hq : t == q.1 with
    | true =>
      simp only [List.map_cons, List.mem_cons]
      exact Or.inl (eq_of_beq hq)
    | false =>
      rw [hq] at h
      simp only [List.map_cons, List.mem_cons]
      exact Or.inr (ih t p h)

theorem toFinset_mono {v v' : List String} (h : ∀ x ∈ v, x ∈ v') :
    v.toFinset ⊆ v'.toFinset := by
  intro x hx
  rw [List.mem_toFinset] at hx ⊢
  exact h x hx

theorem catalogBound_mono (c : List (String × String)) {v v' : List String}
    (h : ∀ x ∈ v, x ∈ v') : catalogBound c v' ≤ catalogBound c v := by
  unfold catalogBound
  exact Finset.card_le_card
    (Finset.sdiff_subset_sdiff (Finset.Subset.refl _) (toFinset_mono h))

theorem catalogBound_cons {c : List (String × String)} {t : String}
    {v : List String} (hk : t ∈ c.map Prod.fst) (hv : t ∉ v) :
    catalogBound c (t :: v) + 1 = catalogBound c v := by
  unfold catalogBound
  have hmem : t ∈ (c.map Prod.fst).toFinset \ v.toFinset := by
    rw [Finset.mem_sdiff, List.mem_toFinset, List.mem_toFinset]
    exact ⟨hk, hv⟩
  rw [List.toFinset_cons, Finset.sdiff_insert, Finset.card_erase_of_mem hmem]
  have : 0 < ((c.map Prod.fst).toFinset \ v.toFinset).card :=
    Finset.card_pos.mpr ⟨t, hmem⟩
  omega

theorem goRefs_inv {c : List (String × String)}
    {bf : String → List String → BuildResult} (hbf : BuildInv c bf) :
    ∀ (rs : List String) (t0 : String) (v : List String)
      (es : List (String × String)) (v' : List String),
      t0 ∈ v → rs.Nodup → goRefs c bf t0 rs v = .ok es v' →
      (∀ x ∈ v, x ∈ v') ∧
      (∀ e ∈ es, keyMem c e.2 = true ∧ e.1 ∈ v' ∧ e.2 ∈ v' ∧
        (e.1 = t0 → e.2 ∈ rs) ∧ (e.1 ≠ t0 → e.1 ∉ v)) ∧
      es.Nodup := by
  intro rs
  induction rs with
  | nil =>
    intro t0 v es v' ht hnd h
    rw [goRefs] at h
    injection h with he hv'
    subst he; subst hv'
    exact ⟨fun x hx => hx, by simp, List.nodup_nil⟩
  | cons r rest ih =>
    intro t0 v es v' ht hnd h
    rw [goRefs] at h
    rw [List.nodup_cons] at hnd
    obtain ⟨hr_rest, hnd_rest⟩ := hnd
    by_cases hk : keyMem c r = true
    · rw [if_pos hk] at h
      cases h1 : bf r v with
      | ok es1 v1 =>
        simp only [h1] at h
        cases h2 : goRefs c bf t0 rest v1 with
        | ok es2 v2 =>
          simp only [h2] at h
          injection h with he hv'
          subst he; subst hv'
          obtain ⟨hsub1, hrv1, hes1, hnd1⟩ := hbf r v es1 v1 h1
          obtain ⟨hsub2, hes2, hnd2⟩ :=
            ih t0 v1 es2 v2 (hsub1 t0 ht) hnd_rest h2
          refine ⟨fun x hx => hsub2 x (hsub1 x hx), ?_, ?_⟩
          · intro e he
            rcases List.mem_cons.mp he with rfl | he'
            · refine ⟨hk, hsub2 t0 (hsub1 t0 ht), hsub2 r hrv1, ?_, ?_⟩
              · intro _; exact List.mem_cons_self r rest
              · intro hne; exact absurd rfl hne
            · rcases List.mem_append.mp he' with h1e | h2e
              · obtain ⟨hkm, h1v, h2v, hnv⟩ := hes1 e h1e
                refine ⟨hkm, hsub2 _ h1v, hsub2 _ h2v, ?_, fun _ => hnv⟩
                intro he1t0
                exact absurd (he1t0 ▸ ht) hnv
              · obtain ⟨hkm, h1v, h2v, hmemrest, hnv1⟩ := hes2 e h2e
                refine ⟨hkm, h1v, h2v,
                  fun h0 => List.mem_cons_of_mem r (hmemrest h0), ?_⟩
                intro hne hin
                exact (hnv1 hne) (hsub1 _ hin)
          · refine List.nodup_cons.mpr ⟨?_, ?_⟩
            · intro hmem
              rcases List.mem_append.mp hmem with h1e | h2e
              · exact (hes1 _ h1e).2.2.2 ht
              · exact hr_rest ((hes2 _ h2e).2.2.2.1 rfl)
            · refine List.nodup_append.mpr ⟨hnd1, hnd2, ?_⟩
              intro e he1 he2
              obtain ⟨_, h1v, _, hnv⟩ := hes1 e he1
              obtain ⟨_, _, _, _, hnv1⟩ := hes2 e he2
              by_cases het : e.1 = t0
              · exact hnv (het ▸ ht)
              · exact (hnv1 het) h1v
        | ioError => simp only [h2] at h; exact BuildResult.noConfusion h
        | outOfFuel => simp only [h2] at h; exact BuildResult.noConfusion h
      | ioError => simp only [h1] at h; exact BuildResult.noConfusion h
      | outOfFuel => simp only [h1] at h; exact BuildResult.noConfusion h
    · rw [if_neg hk] at h
      obtain ⟨hsub, hes, hnd'⟩ := ih t0 v es v' ht hnd_rest h
      refine ⟨hsub, ?_, hnd'⟩
      intro e he
      obtain ⟨hkm, h1v, h2v, hmr, hnv⟩ := hes e he
      exact ⟨hkm, h1v, h2v, fun h0 => List.mem_cons_of_mem r (hmr h0), hnv⟩

theorem buildFuel_inv (fs : String → Option String) (c : List (String × String)) :
    ∀ fuel : Nat, BuildInv c (fun t v => buildFuel fs c fuel t v) := by
  intro fuel
  induction fuel with
  | zero =>
    intro t v es v' h
    replace h : buildFuel fs c 0 t v = .ok es v' := h
    simp [buildFuel] at h
  | succ fuel ih =>
    intro t v es v' h
    replace h : buildFuel fs c (fuel + 1) t v = .ok es v' := h
    rw [buildFuel] at h
    by_cases hv : t ∈ v
    · rw [if_pos hv] at h
      injection h with he hv'
      subst he; subst hv'
      exact ⟨fun x hx => hx, hv, by simp, List.nodup_nil⟩
    · rw [if_neg hv] at h
      cases hlk : List.lookup t c with
      | none =>
        simp only [hlk] at h
        injection h with he hv'
        subst he; subst hv'
        exact ⟨fun x hx => List.mem_cons_of_mem t hx, List.mem_cons_self t v,
          by simp, List.nodup_nil⟩
      | some p =>
        simp only [hlk] at h
        by_cases hp : p = ""
        · rw [if_pos hp] at h
          injection h with he hv'
          subst he; subst hv'
          exact ⟨fun x hx => List.mem_cons_of_mem t hx, List.mem_cons_self t v,
            by simp, List.nodup_nil⟩
        · rw [if_neg hp] at h
          cases hfs : fs p with
          | none => simp only [hfs] at h; exact BuildResult.noConfusion h
          | some content =>
            simp only [hfs] at h
            obtain ⟨hsub, hes, hnd⟩ :=
              goRefs_inv ih (extract_referenced_tables (pyLower content)) t
                (t :: v) es v' (List.mem_cons_self t v) (List.nodup_dedup _) h
            refine ⟨fun x hx => hsub x (List.mem_cons_of_mem t hx),
              hsub t (List.mem_cons_self t v), ?_, hnd⟩
            intro e he
            obtain ⟨hkm, h1v, h2v, _, hnv⟩ := hes e he
            refine ⟨hkm, h1v, h2v, ?_⟩
            by_cases het : e.1 = t
            · rw [het]; exact hv
            · intro hin
              exact (hnv het) (List.mem_cons_of_mem t hin)

theorem goRefs_stab {c : List (String × String)}
    {bf1 bf2 : String → List String → BuildResult} {f : Nat}
    (hbf : ∀ r w, catalogBound c w < f →
      bf1 r w = bf2 r w ∧ bf1 r w ≠ .outOfFuel)
    (hmono : ∀ r w es w', bf1 r w = .ok es w' → ∀ x ∈ w, x ∈ w') :
    ∀ (rs : List String) (t0 : String) (v : List String),
      catalogBound c v < f →
      goRefs c bf1 t0 rs v = goRefs c bf2 t0 rs v ∧
      goRefs c bf1 t0 rs v ≠ .outOfFuel := by
  intro rs
  induction rs with
  | nil =>
    intro t0 v hv
    rw [goRefs, goRefs]
    exact ⟨rfl, fun h => BuildResult.noConfusion h⟩
  | cons r rest ih =>
    intro t0 v hv
    rw [goRefs, goRefs]
    by_cases hk : keyMem c r = true
    · rw [if_pos hk, if_pos hk]
      obtain ⟨heq, hne⟩ := hbf r v hv
      rw [heq]
      rw [heq] at hne
      cases h1 : bf2 r v with
      | ok es1 v1 =>
        simp only [h1]
        have hv1 : catalogBound c v1 < f := by
          have := catalogBound_mono c (hmono r v es1 v1 (heq.trans h1))
          omega
        obtain ⟨heq2, hne2⟩ := ih t0 v1 hv1
        rw [heq2]
        rw [heq2] at hne2
        cases h2 : goRefs c bf2 t0 rest v1 with
        | ok es2 v2 => exact ⟨rfl, fun h => BuildResult.noConfusion h⟩
        | ioError => exact ⟨rfl, fun h => BuildResult.noConfusion h⟩
        | outOfFuel => exact absurd h2 hne2
      | ioError =>
        simp only [h1]
        exact ⟨by trivial, fun h => BuildResult.noConfusion h⟩
      | outOfFuel => exact absurd h1 hne
    · rw [if_neg hk, if_neg hk]
      exact ih t0 v hv

theorem buildFuel_stab (fs : String → Option String)
    (c : List (String × String)) :
    ∀ (f : Nat) (t : String) (v : List String), catalogBound c v < f →
      buildFuel fs c f t v = buildFuel fs c (f + 1) t v ∧
      buildFuel fs c f t v ≠ .outOfFuel := by
  intro f
  induction f with
  | zero => intro t v hv; omega
  | succ g ih =>
    intro t v hv
    rw [buildFuel]
    conv in buildFuel fs c (g + 1 + 1) t v => rw [buildFuel]
    by_cases hmem : t ∈ v
    · rw [if_pos hmem, if_pos hmem]
      exact ⟨rfl, fun h => BuildResult.noConfusion h⟩
    · rw [if_neg hmem, if_neg hmem]
      cases hlk : List.lookup t c with
      | none => exact ⟨rfl, fun h => BuildResult.noConfusion h⟩
      | some p =>
        dsimp only
        by_cases hp : p = ""
        · rw [if_pos hp, if_pos hp]
          exact ⟨rfl, fun h => BuildResult.noConfusion h⟩
        · rw [if_neg hp, if_neg hp]
          cases hfs : fs p with
          | none =>
            dsimp only
            exact ⟨rfl, fun h => BuildResult.noConfusion h⟩
          | some content =>
            dsimp only
            have hkeys : t ∈ c.map Prod.fst := lookup_mem_keys c t p hlk
            have hb : catalogBound c (t :: v) + 1 = catalogBound c v :=
              catalogBound_cons hkeys hmem
            have hlt : catalogBound c (t :: v) < g := by omega
            exact goRefs_stab (fun r w hw => ih r w hw)
              (fun r w es w' h x hx =>
                ((buildFuel_inv fs c g) r w es w' h).1 x hx)
              (extract_referenced_tables (pyLower content)) t (t :: v) hlt

theorem buildFuel_add (fs : String → Option String)
    (c : List (String × String)) :
    ∀ (k N : Nat) (t : String) (v : List String), catalogBound c v < N →
      buildFuel fs c (N + k) t v = buildFuel fs c N t v := by
  intro k
  induction k with
  | zero => intro N t v _; rfl
  | succ k ih =>
    intro N t v hv
    have h1 : buildFuel fs c (N + k) t v = buildFuel fs c (N + k + 1) t v :=
      (buildFuel_stab fs c (N + k) t v (by omega)).1
    have h2 : N + (k + 1) = N + k + 1 := by omega
    rw [h2, ← h1]
    exact ih N t v hv

theorem buildFuel_ge (fs : String → Option String)
    (c : List (String × String)) {f N : Nat} {t : String} {v : List String}
    (hN : catalogBound c v < N) (hf : N ≤ f) :
    buildFuel fs c f t v = buildFuel fs c N t v := by
  have h : f = N + (f - N) := by omega
  rw [h]
  exact buildFuel_add fs c (f - N) N t v hN

theorem goRefs_edge_of_mem {c : List (String × String)}
    {bf : String → List String → BuildResult} {t0 : String} :
    ∀ (rs : List String) (v : List String) (es : List (String × String))
      (v' : List String) (r : String),
      r ∈ rs → keyMem c r = true → goRefs c bf t0 rs v = .ok es v' →
      (t0, r) ∈ es := by
  intro rs
  induction rs with
  | nil => intro v es v' r hr _ _; exact absurd hr (List.not_mem_nil r)
  | cons a rest ih =>
    intro v es v' r hr hk h
    rw [goRefs] at h
    by_cases hka : keyMem c a = true
    · rw [if_pos hka] at h
      cases h1 : bf a v with
      | ok es1 v1 =>
        simp only [h1] at h
        cases h2 : goRefs c bf t0 rest v1 with
        | ok es2 v2 =>
          simp only [h2] at h
          injection h with he hv'
          subst he
          rcases List.mem_cons.mp hr with rfl | hr'
          · exact List.mem_cons_self _ _
          · exact List.mem_cons_of_mem _
              (List.mem_append.mpr (Or.inr (ih v1 es2 v2 r hr' hk h2)))
        | ioError => simp only [h2] at h; exact BuildResult.noConfusion h
        | outOfFuel => simp only [h2] at h; exact BuildResult.noConfusion h
      | ioError => simp only [h1] at h; exact BuildResult.noConfusion h
      | outOfFuel => simp only [h1] at h; exact BuildResult.noConfusion h
    · rw [if_neg hka] at h
      rcases List.mem_cons.mp hr with rfl | hr'
      · exact absurd hk hka
      · exact ih v es v' r hr' hk h

theorem buildFuel_visited (fs : String → Option String)
    (c : List (String × String)) (fuel : Nat) (t : String) (v : List String)
    (h : t ∈ v) : buildFuel fs c (fuel + 1) t v = .ok [] v := by
  rw [buildFuel, if_pos h]

theorem keyMem_nil (q : String) : keyMem [] q = false := rfl

theorem keyMem_cons (q : String × String) (m : List (String × String))
    (k : String) : keyMem (q :: m) k = (k == q.1 || keyMem m k) := by
  unfold keyMem
  rw [List.lookup]
  cases hq : k == q.1
  · dsimp only; rw [Bool.false_or]
  · dsimp only; rw [Bool.true_or]; rfl

theorem keyMem_append :
    ∀ (m1 m2 : List (String × String)) (k : String),
      keyMem (m1 ++ m2) k = (keyMem m1 k || keyMem m2 k) := by
  intro m1
  induction m1 with
  | nil => intro m2 k; rw [List.nil_append, keyMem_nil, Bool.false_or]
  | cons q rest ih =>
    intro m2 k
    rw [List.cons_append, keyMem_cons, keyMem_cons, ih, Bool.or_assoc]

theorem keyMem_overwrite (k v : String) :
    ∀ (m : List (String × String)) (q : String),
      keyMem (m.map (fun p => if p.1 = k then (k, v) else p)) q = keyMem m q := by
  intro m
  induction m with
  | nil => intro q; rfl
  | cons a rest ih =>
    intro q
    rw [List.map_cons, keyMem_cons, keyMem_cons, ih]
    by_cases ha : a.1 = k
    · simp [ha]
    · simp [ha]

theorem dictInsert_mem (m : List (String × String)) (k v : String) :
    ∀ tp ∈ dictInsert m k v, tp ∈ m ∨ tp = (k, v) := by
  intro tp htp
  unfold dictInsert at htp
  by_cases hk : keyMem m k = true
  · rw [if_pos hk] at htp
    rcases List.mem_map.mp htp with ⟨q, hq, hqe⟩
    by_cases hqk : q.1 = k
    · right; rw [← hqe, if_pos hqk]
    · left; rw [← hqe, if_neg hqk]; exact hq
  · rw [if_neg hk] at htp
    rcases List.mem_append.mp htp with h | h
    · left; exact h
    · right; simpa using h

theorem keyMem_dictInsert (m : List (String × String)) (k v q : String) :
    keyMem (dictInsert m k v) q = (keyMem m q || q == k) := by
  unfold dictInsert
  by_cases hk : keyMem m k = true
  · rw [if_pos hk, keyMem_overwrite]
    by_cases hqk : q = k
    · subst hqk; simp [hk]
    · simp [hqk]
  · rw [if_neg hk, keyMem_append, keyMem_cons, keyMem_nil]
    rw [Bool.or_false]

theorem dictInsert_length (m : List (String × String)) (k v : String) :
    (dictInsert m k v).length ≤ m.length + 1 := by
  unfold dictInsert
  by_cases hk : keyMem m k = true
  · rw [if_pos hk, List.length_map]; omega
  · rw [if_neg hk, List.length_append]; simp

theorem scanAux_mem :
    ∀ (walk acc : List (String × String)) (tp : String × String),
      tp ∈ scanAux walk acc →
      tp ∈ acc ∨
        ∃ rf ∈ walk, fileTable rf.2 = some tp.1 ∧ tp.2 = pathJoin rf.1 rf.2 := by
  intro walk
  induction walk with
  | nil => intro acc tp h; exact Or.inl h
  | cons rf rest ih =>
    intro acc tp h
    rw [scanAux] at h
    cases hft : fileTable rf.2 with
    | none =>
      simp only [hft] at h
      rcases ih acc tp h with h' | ⟨rf', hrf', h1, h2⟩
      · exact Or.inl h'
      · exact Or.inr ⟨rf', List.mem_cons_of_mem rf hrf', h1, h2⟩
    | some tn =>
      simp only [hft] at h
      rcases ih _ tp h with h' | ⟨rf', hrf', h1, h2⟩
      · rcases dictInsert_mem acc tn (pathJoin rf.1 rf.2) tp h' with hm | he
        · exact Or.inl hm
        · subst he
          exact Or.inr ⟨rf, List.mem_cons_self rf rest, hft, rfl⟩
      · exact Or.inr ⟨rf', List.mem_cons_of_mem rf hrf', h1, h2⟩

theorem scanAux_keyMem_mono :
    ∀ (walk acc : List (String × String)) (k : String),
      keyMem acc k = true → keyMem (scanAux walk acc) k = true := by
  intro walk
  induction walk with
  | nil => intro acc k h; exact h
  | cons rf rest ih =>
    intro acc k h
    rw [scanAux]
    cases hft : fileTable rf.2 with
    | none => simp only [hft]; exact ih acc k h
    | some tn =>
      simp only [hft]
      exact ih _ k (by rw [keyMem_dictInsert, h, Bool.true_or])

theorem scanAux_inserts :
    ∀ (walk acc : List (String × String)),
      ∀ rf ∈ walk, ∀ tn, fileTable rf.2 = some tn →
        keyMem (scanAux walk acc) tn = true := by
  intro walk
  induction walk with
  | nil => intro acc rf hrf; exact absurd hrf (List.not_mem_nil rf)
  | cons a rest ih =>
    intro acc rf hrf tn hft
    rw [scanAux]
    rcases List.mem_cons.mp hrf with rfl | hrf'
    · simp only [hft]
      exact scanAux_keyMem_mono rest _ tn (by rw [keyMem_dictInsert]; simp)
    · cases hfa : fileTable a.2 with
      | none => simp only [hfa]; exact ih acc rf hrf' tn hft
      | some tm => simp only [hfa]; exact ih _ rf hrf' tn hft

theorem scanAux_length :
    ∀ (walk acc : List (String × String)),
      (scanAux walk acc).length ≤
        acc.length + (walk.filter (fun rf => (fileTable rf.2).isSome)).length := by
  intro walk
  induction walk with
  | nil => intro acc; rw [scanAux]; simp
  | cons rf rest ih =>
    intro acc
    rw [scanAux, List.filter_cons]
    cases hft : fileTable rf.2 with
    | none =>
      simp only [hft, Option.isSome_none, Bool.false_eq_true, if_false]
      exact ih acc
    | some tn =>
      simp only [hft, Option.isSome_some, if_true, List.length_cons]
      have h1 := ih (dictInsert acc tn (pathJoin rf.1 rf.2))
      have h2 := dictInsert_length acc tn (pathJoin rf.1 rf.2)
      omega

theorem underDir_pathJoin {D r : String} (f : String) (h : underDir D r) :
    underDir D (pathJoin r f) := by
  obtain ⟨s, rfl⟩ := h
  unfold pathJoin
  by_cases he : strEndsWith (D ++ s) "/" = true
  · rw [if_pos he]
    exact ⟨s ++ f, String.append_assoc D s f⟩
  · rw [if_neg he]
    refine ⟨s ++ "/" ++ f, ?_⟩
    rw [String.append_assoc D s, String.append_assoc D]

/-! ## Claim theorems -/

/-- Claim C1: the spec says `extract` returns the set of all distinct table
identifiers (a recognized prefix immediately followed by an identifier-safe
run).  The code instead returns only the text of the capturing group — the
bare prefix token — because `re.findall` with one group yields the group,
not the whole match: on `"select * from g_orders"` it produces `{"g_"}`,
not `{"g_orders"}`, contradicting the function's own docstring. -/
theorem extract_group_collapse :
    extract_referenced_tables "select * from g_orders" = ["g_"] ∧
    "g_orders" ∉ extract_referenced_tables "select * from g_orders" := by
  exact ⟨by decide, by decide⟩

/-- Claim C2 counterexample: for the one-entry catalog `selfCatalog`
(table `g_` defined by a file whose content references `g_`), the built
lineage graph contains the self-loop edge `(g_, g_)`, so it is not true
that build output never contains an edge `(X, X)`. -/
theorem build_lineage_self_loop_cex :
    ("g_", "g_") ∈ edgesOf (build_lineage selfFs selfCatalog "g_" []) := by
  decide

/-- Claim C2 (amended): `build_lineage` performs no self-reference
filtering; it appends the edge `(table, r)` for every extracted reference
`r` present in the catalog, including `r = table`, so whenever the table
being expanded occurs among the references extracted from its own file the
output contains the self-loop `(t, t)`. -/
theorem build_lineage_self_loop (fs : String → Option String)
    (c : List (String × String)) (fuel : Nat) (t : String) (v : List String)
    (p content : String) (es : List (String × String)) (v' : List String)
    (hv : t ∉ v) (hlk : c.lookup t = some p) (hp : p ≠ "")
    (hfs : fs p = some content)
    (href : t ∈ extract_referenced_tables (pyLower content))
    (h : buildFuel fs c (fuel + 1) t v = .ok es v') :
    (t, t) ∈ es := by
  rw [buildFuel, if_neg hv] at h
  simp only [hlk] at h
  rw [if_neg hp] at h
  simp only [hfs] at h
  have hk : keyMem c t = true := by unfold keyMem; rw [hlk]; rfl
  exact goRefs_edge_of_mem (extract_referenced_tables (pyLower content))
    (t :: v) es v' t href hk h

/-- Claim C2 witness: the general self-loop theorem applied to the concrete
self-referencing catalog. -/
theorem build_lineage_self_loop_witness : ("g_", "g_") ∈ [("g_", "g_")] :=
  build_lineage_self_loop selfFs selfCatalog 1 "g_" [] "p" "g_x"
    [("g_", "g_")] ["g_"] (by decide) (by decide) (by decide) rfl
    (by decide) (by decide)

/-- Claim C3: for every finite catalog and root, the build terminates — in
the fuel model, any fuel beyond the number of catalog keys yields the same
result as the canonical bound, and that result is never fuel exhaustion,
even when the catalog encodes a reference cycle. -/
theorem build_lineage_terminates (c : List (String × String))
    (fs : String → Option String) (root : String) (fuel : Nat)
    (h : catalogBound c [] < fuel) :
    buildFuel fs c fuel root [] = build_lineage fs c root [] ∧
    build_lineage fs c root [] ≠ .outOfFuel := by
  unfold build_lineage
  constructor
  · exact buildFuel_ge fs c (Nat.lt_succ_self _) (by omega)
  · exact (buildFuel_stab fs c (catalogBound c [] + 1) root []
      (Nat.lt_succ_self _)).2

/-- Claim C3 witness: termination on the cyclic catalog `g_ ↔ s_`. -/
theorem build_lineage_terminates_witness :
    buildFuel exFs exCatalog 5 "g_" [] = build_lineage exFs exCatalog "g_" [] ∧
    build_lineage exFs exCatalog "g_" [] ≠ .outOfFuel :=
  build_lineage_terminates exCatalog exFs "g_" 5 (by decide)

/-- Claim C4: every table appearing as the dependency (second component) of
an edge in the build output is a key of the catalog — edges are appended
only under the `ref_table in table_file_map` test, so unresolved references
are dropped. -/
theorem build_deps_in_catalog (fs : String → Option String)
    (c : List (String × String)) (fuel : Nat) (t : String)
    (v : List String) (es : List (String × String)) (v' : List String)
    (h : buildFuel fs c fuel t v = .ok es v') :
    ∀ e ∈ es, keyMem c e.2 = true :=
  fun e he => ((buildFuel_inv fs c fuel t v es v' h).2.2.1 e he).1

/-- Claim C4 witness: the dependency of the first edge produced on the
cyclic example catalog is one of its keys. -/
theorem build_deps_in_catalog_witness : keyMem exCatalog "s_" = true :=
  build_deps_in_catalog exFs exCatalog 4 "g_" [] [("g_", "s_"), ("s_", "g_")]
    ["s_", "g_"] (by decide) ("g_", "s_") (by decide)

/-- Claim C5 counterexample: with a catalog entry whose file cannot be
read, the build does not treat the table as a leaf and complete — it
aborts with the propagated read error (`build_lineage` has no
`try`/`except` around `open`). -/
theorem build_lineage_read_abort_cex :
    build_lineage badFs selfCatalog "g_" [] = .ioError := by decide

/-- Claim C5 (amended): a table missing from the catalog (`dict.get`
returns a falsy value) becomes a leaf with no outgoing edges, but a table
whose catalog file cannot be read makes the whole build abort with the
propagated read error — the two cases are not treated identically. -/
theorem build_missing_vs_unreadable (fs : String → Option String)
    (c : List (String × String)) (fuel : Nat) (t : String) (v : List String)
    (hv : t ∉ v) :
    (c.lookup t = none → buildFuel fs c (fuel + 1) t v = .ok [] (t :: v)) ∧
    (∀ p, c.lookup t = some p → p ≠ "" → fs p = none →
      buildFuel fs c (fuel + 1) t v = .ioError) := by
  constructor
  · intro h
    rw [buildFuel, if_neg hv, h]
  · intro p hp hpne hfs
    rw [buildFuel, if_neg hv, hp]
    dsimp only
    rw [if_neg hpne, hfs]

/-- Claim C5 witness: the leaf/abort dichotomy at the concrete unreadable
catalog. -/
theorem build_missing_vs_unreadable_witness :
    buildFuel badFs selfCatalog 3 "g_" [] = .ioError :=
  (build_missing_vs_unreadable badFs selfCatalog 2 "g_" [] (by decide)).2 "p"
    (by decide) (by decide) rfl

/-- Claim C6 counterexample: when the root directory does not exist or is
unreadable, `os.walk` (default `onerror=None`) yields no entries, and the
scan silently returns the empty catalog instead of aborting with an
error. -/
theorem scan_missing_root_silent :
    scan_sql_files walkOfMissingRoot = [] := rfl

/-- Claim C6 (amended): when the walk of the root yields no entries — as
happens for a missing or unreadable root directory — the scan returns an
empty catalog without raising any error. -/
theorem scan_empty_walk (walk : List (String × String))
    (h : walk.isEmpty = true) : scan_sql_files walk = [] := by
  cases walk with
  | nil => rfl
  | cons a l => simp at h

/-- Claim C6 witness: the amended claim at the empty walk. -/
theorem scan_empty_walk_witness :
    scan_sql_files ([] : List (String × String)) = [] :=
  scan_empty_walk [] rfl

/-- Claim C7: every catalog entry produced by the scan comes from a `.sql`
file whose lower-cased name matches the three-part pattern, with the
TableId being the matched `prefix + base-name` and the path being the join
of the walk directory and file name; every matching file's TableId is
inserted; the catalog has at most as many entries as matching files; and
when every walk directory lies under `D`, every entry's path lies under
`D`. -/
theorem scan_structured (walk : List (String × String)) (D : String)
    (hD : ∀ rf ∈ walk, underDir D rf.1) :
    (∀ tp ∈ scan_sql_files walk,
      ∃ rf ∈ walk, fileTable rf.2 = some tp.1 ∧ tp.2 = pathJoin rf.1 rf.2) ∧
    (∀ rf ∈ walk, ∀ tn, fileTable rf.2 = some tn →
      keyMem (scan_sql_files walk) tn = true) ∧
    (scan_sql_files walk).length ≤
      (walk.filter (fun rf => (fileTable rf.2).isSome)).length ∧
    (∀ tp ∈ scan_sql_files walk, underDir D tp.2) := by
  refine ⟨?_, ?_, ?_, ?_⟩
  · intro tp htp
    rcases scanAux_mem walk [] tp htp with h | h
    · exact absurd h (List.not_mem_nil tp)
    · exact h
  · intro rf hrf tn hft
    exact scanAux_inserts walk [] rf hrf tn hft
  · have h := scanAux_length walk []
    simpa using h
  · intro tp htp
    rcases scanAux_mem walk [] tp htp with h | ⟨rf, hrf, h1, h2⟩
    · exact absurd h (List.not_mem_nil tp)
    · rw [h2]
      exact underDir_pathJoin rf.2 (hD rf hrf)

/-- Claim C7 witness: the scan of the concrete walk listing puts the
matching file's entry under the scanned directory. -/
theorem scan_structured_witness :
    underDir "SQL/Extract" "SQL/Extract/g_a_market_table.sql" :=
  (scan_structured exWalk "SQL/Extract"
      (by
        intro rf hrf
        rcases List.mem_cons.mp hrf with rfl | hrf'
        · exact ⟨"", by decide⟩
        · rcases List.mem_cons.mp hrf' with rfl | h0
          · exact ⟨"", by decide⟩
          · exact absurd h0 (List.not_mem_nil rf))).2.2.2
    ("g_market_table", "SQL/Extract/g_a_market_table.sql") (by decide)

/-- Claim C8: two builds from the same root over the same catalog and
unchanged file contents (modelled as two sufficient fuel values) produce
the same set of edge pairs. -/
theorem build_idempotent (c : List (String × String))
    (fs : String → Option String) (root : String) (fuel1 fuel2 : Nat)
    (h1 : catalogBound c [] < fuel1) (h2 : catalogBound c [] < fuel2) :
    (edgesOf (buildFuel fs c fuel1 root [])).toFinset =
      (edgesOf (buildFuel fs c fuel2 root [])).toFinset := by
  rw [@buildFuel_ge fs c fuel1 (catalogBound c [] + 1) root []
      (Nat.lt_succ_self _) (by omega),
    @buildFuel_ge fs c fuel2 (catalogBound c [] + 1) root []
      (Nat.lt_succ_self _) (by omega)]

/-- Claim C8 witness: two builds at different sufficient fuels on the
cyclic example catalog agree on the edge set. -/
theorem build_idempotent_witness :
    (edgesOf (buildFuel exFs exCatalog 4 "g_" [])).toFinset =
      (edgesOf (buildFuel exFs exCatalog 7 "g_" [])).toFinset :=
  build_idempotent exCatalog exFs "g_" 4 7 (by decide) (by decide)

/-- Claim C9: the visited set is caller-supplied threaded state — if the
root is already in it the build returns no edges and the set unchanged;
otherwise the returned set contains the root, everything previously
visited, and both endpoints of every produced edge, so a second call
reusing the returned set yields no edges and no further change. -/
theorem build_visited_frame (fs : String → Option String)
    (c : List (String × String)) (fuel1 fuel2 : Nat) (R : String)
    (v : List String) :
    (R ∈ v → buildFuel fs c (fuel1 + 1) R v = .ok [] v) ∧
    (∀ es v', buildFuel fs c fuel1 R v = .ok es v' →
      R ∈ v' ∧ (∀ x ∈ v, x ∈ v') ∧ (∀ e ∈ es, e.1 ∈ v' ∧ e.2 ∈ v') ∧
      buildFuel fs c (fuel2 + 1) R v' = .ok [] v') := by
  constructor
  · intro h
    exact buildFuel_visited fs c fuel1 R v h
  · intro es v' h
    obtain ⟨hsub, hR, hes, _⟩ := buildFuel_inv fs c fuel1 R v es v' h
    exact ⟨hR, hsub, fun e he => ⟨(hes e he).2.1, (hes e he).2.2.1⟩,
      buildFuel_visited fs c fuel2 R v' hR⟩

/-- Claim C9 witness: re-running the build with the visited set returned by
a first run yields no edges and leaves the set unchanged. -/
theorem build_visited_frame_witness :
    buildFuel exFs exCatalog 3 "g_" ["s_", "g_"] = .ok [] ["s_", "g_"] :=
  ((build_visited_frame exFs exCatalog 4 2 "g_" []).2
    [("g_", "s_"), ("s_", "g_")] ["s_", "g_"] (by decide)).2.2.2

/-- Claim C10: starting from an empty visited set, the edge list of a
completed build contains no repeated ordered pair — each table is expanded
at most once and its extracted references are deduplicated. -/
theorem build_edges_nodup (fs : String → Option String)
    (c : List (String × String)) (fuel : Nat) (root : String)
    (es : List (String × String)) (v' : List String)
    (h : buildFuel fs c fuel root [] = .ok es v') : es.Nodup :=
  (buildFuel_inv fs c fuel root [] es v' h).2.2.2

/-- Claim C10 witness: the edge list built on the cyclic example catalog
has no duplicate pair. -/
theorem build_edges_nodup_witness :
    ([("g_", "s_"), ("s_", "g_")] : List (String × String)).Nodup :=
  build_edges_nodup exFs exCatalog 4 "g_" [("g_", "s_"), ("s_", "g_")]
    ["s_", "g_"] (by decide)

end DataLineage
